import Mathlib

/-!
Shallow embedding of the retrieval-augmented QA pipeline of this repository:

* `Embedding.py` — `clean_text`, `chunk_text`, and the pure cores of
  `process_discourse` / `process_markdown` (the per-document filter-and-chunk
  loops; file/DB I/O and the external embedding model are outside the model);
* `app.py` — the scoring and ranking core of `find_best_match`
  (`sklearn.metrics.pairwise.cosine_similarity` followed by a stable
  descending sort and truncation to `top_k`).

Strings are modelled as their character lists; Python `len` on a string is the
character count.  Real numbers stand in for the floating-point values.
-/

/-- Python `re.sub(r'\s+', ' ', text)`: every maximal run of whitespace is
replaced by a single space.  The Boolean flag records whether the scan is
currently inside a whitespace run (in which case further whitespace of the
same run is dropped). -/
def subWSAux : Bool → List Char → List Char
  | _, [] => []
  | inRun, c :: cs =>
    if c.isWhitespace then
      if inRun then subWSAux true cs else ' ' :: subWSAux true cs
    else c :: subWSAux false cs

/-- Python `str.strip()`: drop all leading and trailing whitespace. -/
def pyStrip (l : List Char) : List Char :=
  ((l.dropWhile Char.isWhitespace).reverse.dropWhile Char.isWhitespace).reverse

/-- `Embedding.py` `clean_text`: `re.sub(r'\s+', ' ', text).strip()`. -/
def clean_text (text : String) : String :=
  String.mk (pyStrip (subWSAux false text.data))

/-- Python `str.split()` (no argument): repeatedly skip whitespace and take the
next maximal whitespace-free run as a token, producing no empty tokens.  Any
`fuel ≥ l.length` makes the fuel irrelevant (`splitWSAux_fuel`). -/
def splitWSAux : Nat → List Char → List (List Char)
  | _, [] => []
  | 0, _ :: _ => []
  | fuel + 1, c :: cs =>
    if c.isWhitespace then splitWSAux fuel cs
    else ((c :: cs).takeWhile (fun x => !x.isWhitespace)) ::
      splitWSAux fuel ((c :: cs).dropWhile (fun x => !x.isWhitespace))

/-- Python `str.split()` on a character list. -/
def splitWS (l : List Char) : List (List Char) := splitWSAux l.length l

/-- Python `text.split()` at the `String` level. -/
def pySplit (text : String) : List String :=
  (splitWS text.data).map String.mk

/-- Python `" ".join(words)` at the character level. -/
def joinChars : List (List Char) → List Char
  | [] => []
  | [t] => t
  | t :: ts => t ++ ' ' :: joinChars ts

/-- The strided window loop `for i in range(0, len(words), step)` of
`chunk_text`, in fuel-recursion form: each iteration takes the window
`words[i:i+w]` and advances by `step = s` positions, i.e. recurses on
`(tok :: toks).drop s = toks.drop (s - 1)` (for `s ≥ 1`).  Any
`fuel ≥ words.length` makes the fuel irrelevant. -/
def chunkWordsAux (w s : Nat) : Nat → List α → List (List α)
  | _, [] => []
  | 0, _ :: _ => []
  | fuel + 1, tok :: toks => ((tok :: toks).take w) :: chunkWordsAux w s fuel (toks.drop (s - 1))

/-- All windows `words[i:i+w]` for `i = 0, s, 2s, ...` while `i < words.length`. -/
def chunkWords (w s : Nat) (words : List α) : List (List α) :=
  chunkWordsAux w s words.length words

/-- `Embedding.py` `chunk_text` (defaults `chunk_size = 1000`, `overlap = 200`).
`words = text.split()`; then `for i in range(0, len(words), chunk_size - overlap)`
collects `" ".join(words[i:i + chunk_size])`, keeping only non-empty chunks.
Python `range` raises `ValueError` when the step is `0` (modelled as `none`)
and yields no iterations when the step is negative (`chunk_size < overlap`). -/
def chunk_text (text : String) (chunk_size overlap : Nat) : Option (List String) :=
  let words := splitWS text.data
  if chunk_size = overlap then none
  else if chunk_size < overlap then some []
  else some ((((chunkWords chunk_size (chunk_size - overlap) words).map joinChars).filter
      (fun c => !c.isEmpty)).map String.mk)

/-- Concatenation of a chunk sequence that de-duplicates each later chunk's
`overlap` leading tokens against its predecessor. -/
def dedupChunks (overlap : Nat) : List (List α) → List α
  | [] => []
  | c :: cs => c ++ (cs.map (List.drop overlap)).flatten

/-- A discourse post as read from `discourse_posts.json`. -/
structure Post where
  post_id : String
  url : String
  content : String

/-- Pure core of `Embedding.py` `process_discourse`: for each post, clean the
content, skip it when the cleaned length is below 30, otherwise chunk it with
the default configuration; the `(post_id, url)` metadata is replicated for
every chunk of the post.  The DB id and the embedding blob (produced by the
external model) are outside the model. -/
def discourseRecords (posts : List Post) : List (String × String × String) :=
  (posts.map (fun p =>
    let content := clean_text p.content
    if content.length < 30 then []
    else ((chunk_text content 1000 200).getD []).map (fun c => (p.post_id, p.url, c)))).flatten

/-- Pure core of `Embedding.py` `process_markdown`: same per-file filter and
chunking, with `(file_name, chunk_index)` metadata, the chunk index counting
the file's own chunks from zero.  Input: `(file_name, raw content)` pairs. -/
def markdownRecords (files : List (String × String)) : List (String × Nat × String) :=
  (files.map (fun f =>
    let content := clean_text f.2
    if content.length < 30 then []
    else (((chunk_text content 1000 200).getD []).enum).map (fun ic => (f.1, ic.1, ic.2)))).flatten

/-- `np.dot` on the modelled vectors. -/
def dotList (a b : List ℝ) : ℝ := (List.zipWith (fun x y => x * y) a b).sum

/-- The squared Euclidean norm of a vector. -/
def normSq (a : List ℝ) : ℝ := dotList a a

/-- The row norm as used by `sklearn.preprocessing.normalize` inside
`cosine_similarity`: a zero norm is replaced by `1` before dividing, so a
zero vector is left as the zero vector instead of producing NaN. -/
noncomputable def safeNorm (a : List ℝ) : ℝ :=
  if normSq a = 0 then 1 else Real.sqrt (normSq a)

/-- `sklearn.metrics.pairwise.cosine_similarity` for one pair of rows:
normalize both rows (with the zero-norm guard) and take the dot product,
i.e. `dot a b / (safeNorm a * safeNorm b)`. -/
noncomputable def cosine_similarity (a b : List ℝ) : ℝ :=
  dotList a b / (safeNorm a * safeNorm b)

/-- The comparison used by `sorted(scored, key=lambda x: x[2], reverse=True)`:
`a` may precede `b` iff `a`'s score is at least `b`'s. -/
def rankLE (a b : Nat × String × ℝ) : Prop := b.2.2 ≤ a.2.2

noncomputable instance : DecidableRel rankLE :=
  fun a b => inferInstanceAs (Decidable (b.2.2 ≤ a.2.2))

instance : IsTotal (Nat × String × ℝ) rankLE :=
  ⟨fun a b => (le_total b.2.2 a.2.2).imp id id⟩

instance : IsTrans (Nat × String × ℝ) rankLE :=
  ⟨fun _ _ _ hab hbc => le_trans hbc hab⟩

/-- Ranking core of `app.py` `find_best_match`: score every scanned record
`(id, content, vector)` against the query embedding, sort descending by score
(Python `sorted` is stable; `List.insertionSort` with `rankLE` is the same
stable descending sort), and truncate to `top_k`. -/
noncomputable def find_best_match (q_emb : List ℝ) (chunks : List (Nat × String × List ℝ))
    (top_k : Nat) : List (Nat × String × ℝ) :=
  let scored := chunks.map (fun r => (r.1, r.2.1, cosine_similarity q_emb r.2.2))
  (List.insertionSort rankLE scored).take top_k

/-! ### Lemmas about the tokenizer `splitWS` and `joinChars` -/

theorem splitWSAux_nil (f : Nat) : splitWSAux f [] = [] := by cases f <;> rfl

theorem dropWhile_not_ws_length {c : Char} (cs : List Char) (h : ¬ c.isWhitespace) :
    ((c :: cs).dropWhile (fun x => !x.isWhitespace)).length ≤ cs.length := by
  simp only [List.dropWhile_cons, h, Bool.not_false, if_true]
  exact (List.dropWhile_sublist _).length_le

theorem splitWSAux_fuel : ∀ (f₁ : Nat) (l : List Char) (f₂ : Nat), l.length ≤ f₁ → l.length ≤ f₂ →
    splitWSAux f₁ l = splitWSAux f₂ l
  | _, [], f₂, _, _ => by rw [splitWSAux_nil, splitWSAux_nil]
  | f₁ + 1, c :: cs, f₂ + 1, h₁, h₂ => by
    simp only [List.length_cons, Nat.add_le_add_iff_right] at h₁ h₂
    by_cases hc : c.isWhitespace
    · simp only [splitWSAux, hc, if_true]
      exact splitWSAux_fuel f₁ cs f₂ h₁ h₂
    · simp only [splitWSAux, hc, Bool.false_eq_true, if_false]
      have hlen := dropWhile_not_ws_length cs hc
      rw [splitWSAux_fuel f₁ _ f₂ (le_trans hlen h₁) (le_trans hlen h₂)]

theorem splitWS_nil : splitWS [] = [] := rfl

theorem splitWS_cons_ws {c : Char} (cs : List Char) (h : c.isWhitespace) :
    splitWS (c :: cs) = splitWS cs := by
  simp only [splitWS, List.length_cons, splitWSAux, h, if_true]

theorem splitWS_cons_not_ws {c : Char} (cs : List Char) (h : ¬ c.isWhitespace) :
    splitWS (c :: cs) = ((c :: cs).takeWhile (fun x => !x.isWhitespace)) ::
      splitWS ((c :: cs).dropWhile (fun x => !x.isWhitespace)) := by
  simp only [splitWS, List.length_cons, splitWSAux, h, Bool.false_eq_true, if_false]
  rw [splitWSAux_fuel cs.length _ _ (dropWhile_not_ws_length cs h) le_rfl]

theorem joinChars_cons₂ (t t' : List Char) (ts : List (List Char)) :
    joinChars (t :: t' :: ts) = t ++ ' ' :: joinChars (t' :: ts) := rfl

theorem takeWhile_append_of_all {p : α → Bool} {t : List α} (r : List α)
    (h : ∀ a ∈ t, p a = true) : (t ++ r).takeWhile p = t ++ r.takeWhile p := by
  induction t with
  | nil => simp
  | cons a t ih =>
    have ha : p a = true := h a (by simp)
    simp only [List.cons_append, List.takeWhile_cons, ha, if_true]
    rw [ih (fun b hb => h b (by simp [hb]))]

theorem dropWhile_append_of_all {p : α → Bool} {t : List α} (r : List α)
    (h : ∀ a ∈ t, p a = true) : (t ++ r).dropWhile p = r.dropWhile p := by
  induction t with
  | nil => simp
  | cons a t ih =>
    have ha : p a = true := h a (by simp)
    simp only [List.cons_append, List.dropWhile_cons, ha, if_true]
    exact ih (fun b hb => h b (by simp [hb]))

theorem splitWSAux_tokens : ∀ (f : Nat) (l : List Char), l.length ≤ f →
    ∀ t ∈ splitWSAux f l, t ≠ [] ∧ ∀ c ∈ t, ¬ c.isWhitespace
  | _, [], _ => by rw [splitWSAux_nil]; intro t ht; cases ht
  | f + 1, c :: cs, h => by
    simp only [List.length_cons, Nat.add_le_add_iff_right] at h
    by_cases hc : c.isWhitespace
    · simp only [splitWSAux, hc, if_true]
      exact splitWSAux_tokens f cs h
    · simp only [splitWSAux, hc, Bool.false_eq_true, if_false]
      intro t ht
      rcases List.mem_cons.mp ht with rfl | ht
      · refine ⟨by simp [List.takeWhile_cons, hc], ?_⟩
        intro x hx
        have := List.mem_takeWhile_imp hx
        simpa using this
      · exact splitWSAux_tokens f _ (le_trans (dropWhile_not_ws_length cs hc) h) t ht

theorem splitWS_tokens (l : List Char) :
    ∀ t ∈ splitWS l, t ≠ [] ∧ ∀ c ∈ t, ¬ c.isWhitespace :=
  splitWSAux_tokens l.length l le_rfl

theorem splitWS_cons_not_ws_ne_nil {c : Char} (cs : List Char) (h : ¬ c.isWhitespace) :
    splitWS (c :: cs) ≠ [] := by
  rw [splitWS_cons_not_ws cs h]
  exact List.cons_ne_nil _ _

theorem splitWS_joinChars : ∀ ts : List (List Char),
    (∀ t ∈ ts, t ≠ [] ∧ ∀ c ∈ t, ¬ c.isWhitespace) → splitWS (joinChars ts) = ts
  | [], _ => rfl
  | [t], h => by
    obtain ⟨hne, hws⟩ := h t (by simp)
    obtain ⟨a, t₀, rfl⟩ := List.exists_cons_of_ne_nil hne
    have ha : ¬ a.isWhitespace := hws a (by simp)
    show splitWS (a :: t₀) = [a :: t₀]
    rw [splitWS_cons_not_ws t₀ ha]
    have htake : (a :: t₀).takeWhile (fun x => !x.isWhitespace) = a :: t₀ :=
      List.takeWhile_eq_self_iff.mpr (fun x hx => by simp [hws x hx])
    have hdrop : (a :: t₀).dropWhile (fun x => !x.isWhitespace) = [] :=
      List.dropWhile_eq_nil_iff.mpr (fun x hx => by simp [hws x hx])
    rw [htake, hdrop, splitWS_nil]
  | t :: t' :: ts, h => by
    obtain ⟨hne, hws⟩ := h t (by simp)
    obtain ⟨a, t₀, rfl⟩ := List.exists_cons_of_ne_nil hne
    have ha : ¬ a.isWhitespace := hws a (by simp)
    have htail : ∀ u ∈ t' :: ts, u ≠ [] ∧ ∀ c ∈ u, ¬ c.isWhitespace :=
      fun u hu => h u (by simp [hu])
    have hall : ∀ x ∈ a :: t₀, (fun x => !x.isWhitespace) x = true :=
      fun x hx => by simp [hws x hx]
    rw [joinChars_cons₂, List.cons_append, splitWS_cons_not_ws _ ha, ← List.cons_append,
      takeWhile_append_of_all _ hall, dropWhile_append_of_all _ hall]
    have hsp : (' ' : Char).isWhitespace = true := by decide
    rw [List.takeWhile_cons, List.dropWhile_cons]
    simp only [hsp, Bool.not_true, Bool.false_eq_true, if_false]
    rw [splitWS_cons_ws _ hsp, splitWS_joinChars (t' :: ts) htail, List.append_nil]

/-! ### Lemmas about the window loop `chunkWords` -/

theorem chunkWordsAux_nil (w s f : Nat) : chunkWordsAux (α := α) w s f [] = [] := by
  cases f <;> rfl

theorem chunkWordsAux_fuel (w s : Nat) :
    ∀ (f₁ : Nat) (l : List α) (f₂ : Nat), l.length ≤ f₁ → l.length ≤ f₂ →
      chunkWordsAux w s f₁ l = chunkWordsAux w s f₂ l
  | _, [], f₂, _, _ => by rw [chunkWordsAux_nil, chunkWordsAux_nil]
  | f₁ + 1, tok :: toks, f₂ + 1, h₁, h₂ => by
    simp only [List.length_cons, Nat.add_le_add_iff_right] at h₁ h₂
    have hlen : (toks.drop (s - 1)).length ≤ toks.length := (List.drop_sublist _ _).length_le
    simp only [chunkWordsAux]
    rw [chunkWordsAux_fuel w s f₁ _ f₂ (le_trans hlen h₁) (le_trans hlen h₂)]

theorem chunkWords_nil (w s : Nat) : chunkWords (α := α) w s [] = [] := rfl

theorem chunkWords_cons (w s : Nat) (tok : α) (toks : List α) :
    chunkWords w s (tok :: toks) = ((tok :: toks).take w) :: chunkWords w s (toks.drop (s - 1)) := by
  simp only [chunkWords, List.length_cons, chunkWordsAux]
  rw [chunkWordsAux_fuel w s toks.length _ _ ((List.drop_sublist _ _).length_le) le_rfl]

theorem chunkWordsAux_mem (w s : Nat) (hw : 1 ≤ w) :
    ∀ (f : Nat) (l : List α), ∀ win ∈ chunkWordsAux w s f l, win ≠ [] ∧ ∀ x ∈ win, x ∈ l
  | _, [] => by rw [chunkWordsAux_nil]; intro win h; cases h
  | 0, a :: l => by intro win h; cases h
  | f + 1, a :: l => by
    intro win h
    simp only [chunkWordsAux, List.mem_cons] at h
    rcases h with rfl | h
    · refine ⟨?_, fun x hx => List.take_subset _ _ hx⟩
      simp only [ne_eq, List.take_eq_nil_iff]
      push_neg
      exact ⟨by omega, by simp⟩
    · obtain ⟨h1, h2⟩ := chunkWordsAux_mem w s hw f _ win h
      exact ⟨h1, fun x hx => List.mem_cons_of_mem _ (List.drop_subset _ _ (h2 x hx))⟩

theorem chunkWords_mem (w s : Nat) (hw : 1 ≤ w) (l : List α) :
    ∀ win ∈ chunkWords w s l, win ≠ [] ∧ ∀ x ∈ win, x ∈ l :=
  chunkWordsAux_mem w s hw l.length l

theorem chunkWordsAux_reconstruct (w o : Nat) (h : o < w) :
    ∀ (f : Nat) (l : List α), l.length ≤ f →
      dedupChunks o (chunkWordsAux w (w - o) f l) = l
  | f, [], _ => by rw [chunkWordsAux_nil]; rfl
  | f + 1, tok :: toks, hl => by
    have hs : 1 ≤ w - o := by omega
    have htl : toks.drop (w - o - 1) = (tok :: toks).drop (w - o) := by
      obtain ⟨s', hs'⟩ := Nat.exists_eq_add_of_le hs
      rw [hs']
      simp [Nat.add_comm 1 s', List.drop_succ_cons]
    simp only [List.length_cons, Nat.add_le_add_iff_right] at hl
    simp only [chunkWordsAux, htl]
    have hlen : ((tok :: toks).drop (w - o)).length ≤ f := by
      rw [← htl]
      exact le_trans ((List.drop_sublist _ _).length_le) hl
    have ih := chunkWordsAux_reconstruct w o h f ((tok :: toks).drop (w - o)) hlen
    cases hW : chunkWordsAux w (w - o) f ((tok :: toks).drop (w - o)) with
    | nil =>
      rw [hW] at ih
      have htlnil : (tok :: toks).drop (w - o) = [] := by simpa [dedupChunks] using ih.symm
      have hlenle : (tok :: toks).length ≤ w - o := List.drop_eq_nil_iff.mp htlnil
      simp only [dedupChunks, List.map_nil, List.flatten_nil, List.append_nil]
      exact List.take_of_length_le (le_trans hlenle (by omega))
    | cons c₀ W' =>
      have htlne : (tok :: toks).drop (w - o) ≠ [] := by
        intro hnil
        rw [hnil, chunkWordsAux_nil] at hW
        cases hW
      obtain ⟨a, tl', htl'⟩ := List.exists_cons_of_ne_nil htlne
      have hf : 1 ≤ f := by
        rw [htl'] at hlen
        simp only [List.length_cons] at hlen
        omega
      obtain ⟨f', rfl⟩ := Nat.exists_eq_add_of_le hf
      have hc₀ : c₀ = ((tok :: toks).drop (w - o)).take w := by
        have hW2 := hW
        rw [htl', Nat.add_comm 1 f'] at hW2
        simp only [chunkWordsAux] at hW2
        rw [htl']
        exact ((List.cons.injEq _ _ _ _).mp hW2).1.symm
      rw [hW] at ih
      simp only [dedupChunks] at ih
      simp only [dedupChunks, List.map_cons, List.flatten_cons]
      have h2 : c₀ ++ (W'.map (List.drop o)).flatten
          = c₀ ++ ((tok :: toks).drop (w - o)).drop w := by
        rw [ih, hc₀, List.take_append_drop]
      have hX := List.append_cancel_left h2
      rw [hX, hc₀]
      rw [List.drop_take, List.drop_drop, List.drop_drop]
      have e1 : w - o + o = w := by omega
      have e2 : w - o + w = w + (w - o) := by omega
      rw [e1, e2, ← List.drop_drop]
      rw [List.take_append_drop, List.take_append_drop]

theorem chunkWords_reconstruct (w o : Nat) (h : o < w) (l : List α) :
    dedupChunks o (chunkWords w (w - o) l) = l :=
  chunkWordsAux_reconstruct w o h l.length l le_rfl

/-! ### Bridging lemmas for `chunk_text` with a positive step -/

theorem joinChars_ne_nil : ∀ ts : List (List Char), ts ≠ [] → (∀ t ∈ ts, t ≠ []) →
    joinChars ts ≠ []
  | [], h, _ => absurd rfl h
  | [t], _, h => by simpa [joinChars] using h t (by simp)
  | t :: t' :: ts, _, h => by
    rw [joinChars_cons₂]
    simp

theorem chunk_text_some (t : String) (w o : Nat) (h : o < w) :
    chunk_text t w o =
      some ((chunkWords w (w - o) (splitWS t.data)).map (fun win => String.mk (joinChars win))) := by
  have h1 : ¬ w = o := by omega
  have h2 : ¬ w < o := by omega
  simp only [chunk_text, h1, h2, if_false]
  rw [List.filter_eq_self.mpr, List.map_map]
  · rfl
  · intro c hc
    obtain ⟨win, hwin, rfl⟩ := List.mem_map.mp hc
    obtain ⟨hne, hmem⟩ := chunkWords_mem w (w - o) (by omega) _ win hwin
    have : joinChars win ≠ [] :=
      joinChars_ne_nil win hne
        (fun u hu => (splitWS_tokens t.data u (hmem u hu)).1)
    simpa [List.isEmpty_iff]

theorem chunkWords_of_short (w s : Nat) (l : List α) (hlen : l.length ≤ s) :
    ∀ a l', l = a :: l' → chunkWords w s l = [l.take w] := by
  rintro a l' rfl
  rw [chunkWords_cons]
  have : l'.drop (s - 1) = [] := by
    apply List.drop_eq_nil_iff.mpr
    simp only [List.length_cons] at hlen
    omega
  rw [this, chunkWords_nil]

theorem dedupChunks_map (f : α → β) (o : Nat) :
    ∀ L : List (List α), dedupChunks o (L.map (List.map f)) = (dedupChunks o L).map f
  | [] => rfl
  | c :: cs => by
    have hfg : cs.map (List.drop o ∘ List.map f) = cs.map (List.map f ∘ List.drop o) := by
      apply List.map_congr_left
      intro x _
      simp [List.map_drop]
    simp only [dedupChunks, List.map_cons, List.map_append, List.map_flatten, List.map_map, hfg]

/-! ### Lemmas about whitespace collapsing (`subWSAux`) and stripping (`pyStrip`) -/

theorem subWSAux_true_head : ∀ (l : List Char) (c : Char),
    (subWSAux true l).head? = some c → ¬ c.isWhitespace
  | [], c => by intro h; cases h
  | a :: l, c => by
    by_cases ha : a.isWhitespace
    · simpa only [subWSAux, ha, if_true] using subWSAux_true_head l c
    · simp only [subWSAux, ha, Bool.false_eq_true, if_false, List.head?_cons]
      intro h
      cases h
      exact ha

theorem subWSAux_chain (l : List Char) : ∀ b : Bool,
    List.Chain' (fun a c => ¬(a.isWhitespace ∧ c.isWhitespace)) (subWSAux b l) := by
  induction l with
  | nil => intro b; simp [subWSAux]
  | cons a l ih =>
    intro b
    by_cases ha : a.isWhitespace
    · cases b
      · simp only [subWSAux, ha, if_true, Bool.false_eq_true, if_false]
        rw [List.chain'_cons']
        refine ⟨?_, ih true⟩
        intro y hy
        intro hcontra
        exact subWSAux_true_head l y hy hcontra.2
      · simpa only [subWSAux, ha, if_true] using ih true
    · simp only [subWSAux, ha, Bool.false_eq_true, if_false]
      rw [List.chain'_cons']
      exact ⟨fun y _ hcontra => ha hcontra.1, ih false⟩

theorem subWSAux_ws_space : ∀ (l : List Char) (b : Bool),
    ∀ x ∈ subWSAux b l, x.isWhitespace → x = ' '
  | [], b => by intro x hx; cases hx
  | a :: l, b => by
    intro x hx hws
    by_cases ha : a.isWhitespace
    · cases b
      · simp only [subWSAux, ha, if_true, Bool.false_eq_true, if_false, List.mem_cons] at hx
        rcases hx with rfl | hx
        · rfl
        · exact subWSAux_ws_space l true x hx hws
      · simp only [subWSAux, ha, if_true] at hx
        exact subWSAux_ws_space l true x hx hws
    · simp only [subWSAux, ha, Bool.false_eq_true, if_false, List.mem_cons] at hx
      rcases hx with rfl | hx
      · exact absurd hws ha
      · exact subWSAux_ws_space l false x hx hws

theorem dropWhile_eq_self_of_head {p : Char → Bool} (l : List Char)
    (h : ∀ c, l.head? = some c → p c = false) : l.dropWhile p = l := by
  cases l with
  | nil => rfl
  | cons a l =>
    rw [List.dropWhile_cons, if_neg]
    simp [h a rfl]

theorem head?_dropWhile_not {p : Char → Bool} : ∀ (l : List Char) (c : Char),
    (l.dropWhile p).head? = some c → p c = false
  | [], c => by intro h; cases h
  | a :: l, c => by
    by_cases ha : p a
    · simp only [List.dropWhile_cons, ha, if_true]
      exact head?_dropWhile_not l c
    · simp only [List.dropWhile_cons, ha, Bool.false_eq_true, if_false, List.head?_cons]
      intro h
      cases h
      simpa using ha

theorem pyStrip_head (l : List Char) (c : Char) :
    (pyStrip l).head? = some c → ¬ c.isWhitespace := by
  intro h
  unfold pyStrip at h
  rw [List.head?_reverse] at h
  obtain ⟨pre, hpre⟩ := List.dropWhile_suffix
    (l := (l.dropWhile Char.isWhitespace).reverse) Char.isWhitespace
  have h2 : ((l.dropWhile Char.isWhitespace).reverse).getLast? = some c := by
    rw [← hpre, List.getLast?_append, h]
    rfl
  rw [List.getLast?_reverse] at h2
  have := head?_dropWhile_not (p := Char.isWhitespace) l c h2
  simpa using this

theorem pyStrip_getLast (l : List Char) (c : Char) :
    (pyStrip l).getLast? = some c → ¬ c.isWhitespace := by
  intro h
  unfold pyStrip at h
  rw [List.getLast?_reverse] at h
  have := head?_dropWhile_not (p := Char.isWhitespace) _ c h
  simpa using this

theorem pyStrip_isInfix (l : List Char) : pyStrip l <:+: l := by
  obtain ⟨pre, hpre⟩ := List.dropWhile_suffix
    (l := (l.dropWhile Char.isWhitespace).reverse) Char.isWhitespace
  have h1 : pyStrip l <+: l.dropWhile Char.isWhitespace := by
    refine ⟨pre.reverse, ?_⟩
    unfold pyStrip
    rw [← List.reverse_append, hpre, List.reverse_reverse]
  exact h1.isInfix.trans (List.dropWhile_suffix Char.isWhitespace).isInfix

/-! ### `clean_text` is the identity on single-space-joined whitespace-free tokens -/

theorem subWSAux_true_eq_false (l : List Char)
    (h : ∀ c, l.head? = some c → ¬ c.isWhitespace) : subWSAux true l = subWSAux false l := by
  cases l with
  | nil => rfl
  | cons a l =>
    have ha : ¬ a.isWhitespace := h a rfl
    simp only [subWSAux, ha, Bool.false_eq_true, if_false]

theorem subWSAux_cons_not_ws {a : Char} (ha : ¬ a.isWhitespace) (b : Bool) (l : List Char) :
    subWSAux b (a :: l) = a :: subWSAux false l := by
  simp only [subWSAux, ha, Bool.false_eq_true, if_false]

theorem subWSAux_cons_ws_false {a : Char} (ha : a.isWhitespace) (l : List Char) :
    subWSAux false (a :: l) = ' ' :: subWSAux true l := by
  simp only [subWSAux, ha, if_true, Bool.false_eq_true, if_false]

theorem subWSAux_append_tok : ∀ (t : List Char) (b : Bool) (r : List Char), t ≠ [] →
    (∀ c ∈ t, ¬ c.isWhitespace) → subWSAux b (t ++ r) = t ++ subWSAux false r
  | [], _, _, h, _ => absurd rfl h
  | [a], b, r, _, hws => by
    have ha : ¬ a.isWhitespace := hws a (by simp)
    rw [List.cons_append, List.nil_append, subWSAux_cons_not_ws ha, List.cons_append,
      List.nil_append]
  | a :: a' :: t, b, r, _, hws => by
    have ha : ¬ a.isWhitespace := hws a (by simp)
    rw [List.cons_append, subWSAux_cons_not_ws ha,
      subWSAux_append_tok (a' :: t) false r (by simp) (fun c hc => hws c (by simp [hc]))]
    simp

theorem joinChars_head_mem : ∀ (ts : List (List Char)), (∀ t ∈ ts, t ≠ []) →
    ∀ c, (joinChars ts).head? = some c → ∃ t ∈ ts, c ∈ t
  | [], _, c => by intro h; cases h
  | [t], h, c => by
    intro hc
    exact ⟨t, by simp, List.mem_of_mem_head? (by simpa [joinChars] using hc)⟩
  | t :: t' :: ts, h, c => by
    intro hc
    rw [joinChars_cons₂] at hc
    obtain ⟨a, t₀, rfl⟩ := List.exists_cons_of_ne_nil (h t (by simp))
    simp only [List.cons_append, List.head?_cons, Option.some.injEq] at hc
    exact ⟨a :: t₀, by simp, by simp [hc]⟩

theorem joinChars_getLast_mem : ∀ (ts : List (List Char)), (∀ t ∈ ts, t ≠ []) →
    ∀ c, (joinChars ts).getLast? = some c → ∃ t ∈ ts, c ∈ t
  | [], _, c => by intro h; cases h
  | [t], h, c => by
    intro hc
    exact ⟨t, by simp, List.mem_of_mem_getLast? (by simpa [joinChars] using hc)⟩
  | t :: t' :: ts, h, c => by
    intro hc
    rw [joinChars_cons₂, List.getLast?_append] at hc
    have hJ : joinChars (t' :: ts) ≠ [] :=
      joinChars_ne_nil _ (by simp) (fun u hu => h u (by simp [hu]))
    obtain ⟨j, J, hJe⟩ := List.exists_cons_of_ne_nil hJ
    rw [hJe, List.getLast?_cons_cons] at hc
    have hsome : (j :: J).getLast? ≠ none := by
      intro hnone
      have := List.getLast?_isSome (l := j :: J)
      rw [hnone] at this
      simp at this
    cases hge : (j :: J).getLast? with
    | none => exact absurd hge hsome
    | some d =>
      rw [hge] at hc
      have hcd : d = c := by
        cases hc₂ : ((some d).or t.getLast?) with
        | none => rw [hc₂] at hc; cases hc
        | some e =>
          rw [hc₂] at hc
          cases hc
          simpa using hc₂
      obtain ⟨u, hu, hcu⟩ := joinChars_getLast_mem (t' :: ts)
        (fun u hu => h u (by simp [hu])) d (by rw [hJe]; exact hge)
      exact ⟨u, by simp [hu], hcd ▸ hcu⟩

theorem subWSAux_joinChars : ∀ ts : List (List Char), ts ≠ [] →
    (∀ t ∈ ts, t ≠ [] ∧ ∀ c ∈ t, ¬ c.isWhitespace) →
    subWSAux false (joinChars ts) = joinChars ts
  | [], h, _ => absurd rfl h
  | [t], _, h => by
    obtain ⟨hne, hws⟩ := h t (by simp)
    show subWSAux false t = t
    have h1 := subWSAux_append_tok t false [] hne hws
    have h0 : subWSAux false ([] : List Char) = [] := rfl
    rw [List.append_nil, h0, List.append_nil] at h1
    exact h1
  | t :: t' :: ts, _, h => by
    obtain ⟨hne, hws⟩ := h t (by simp)
    have htail : ∀ u ∈ t' :: ts, u ≠ [] ∧ ∀ c ∈ u, ¬ c.isWhitespace :=
      fun u hu => h u (by simp [hu])
    have hsp : (' ' : Char).isWhitespace = true := by decide
    rw [joinChars_cons₂, subWSAux_append_tok t false _ hne hws,
      subWSAux_cons_ws_false hsp,
      subWSAux_true_eq_false _ (fun c hc => by
        obtain ⟨u, hu, hcu⟩ := joinChars_head_mem (t' :: ts)
          (fun u hu => (htail u hu).1) c hc
        exact (htail u hu).2 c hcu),
      subWSAux_joinChars (t' :: ts) (by simp) htail]

theorem pyStrip_eq_self (l : List Char)
    (h1 : ∀ c, l.head? = some c → ¬ c.isWhitespace)
    (h2 : ∀ c, l.getLast? = some c → ¬ c.isWhitespace) : pyStrip l = l := by
  unfold pyStrip
  rw [dropWhile_eq_self_of_head l (fun c hc => by simp [h1 c hc])]
  rw [dropWhile_eq_self_of_head l.reverse
    (fun c hc => by simp [h2 c (by rwa [List.head?_reverse] at hc)])]
  exact List.reverse_reverse l

theorem clean_text_joinChars (ts : List (List Char)) (hne : ts ≠ [])
    (h : ∀ t ∈ ts, t ≠ [] ∧ ∀ c ∈ t, ¬ c.isWhitespace) :
    clean_text (String.mk (joinChars ts)) = String.mk (joinChars ts) := by
  unfold clean_text
  have hd : (String.mk (joinChars ts)).data = joinChars ts := rfl
  rw [hd, subWSAux_joinChars ts hne h, pyStrip_eq_self]
  · intro c hc
    obtain ⟨u, hu, hcu⟩ := joinChars_head_mem ts (fun u hu => (h u hu).1) c hc
    exact (h u hu).2 c hcu
  · intro c hc
    obtain ⟨u, hu, hcu⟩ := joinChars_getLast_mem ts (fun u hu => (h u hu).1) c hc
    exact (h u hu).2 c hcu

/-! ### Stability and shape of the descending sort in `find_best_match` -/

theorem filter_orderedInsert (s : ℝ) (a : Nat × String × ℝ) :
    ∀ l : List (Nat × String × ℝ),
      (List.orderedInsert rankLE a l).filter (fun r => decide (r.2.2 = s)) =
        if a.2.2 = s then a :: l.filter (fun r => decide (r.2.2 = s))
        else l.filter (fun r => decide (r.2.2 = s))
  | [] => by
    simp only [List.orderedInsert, List.filter]
    by_cases h : a.2.2 = s <;> simp [h]
  | b :: l => by
    by_cases hab : rankLE a b
    · simp only [List.orderedInsert]
      rw [if_pos hab]
      by_cases ha : a.2.2 = s <;> simp [List.filter_cons, ha]
    · simp only [List.orderedInsert]
      rw [if_neg hab, List.filter_cons, List.filter_cons]
      by_cases hb : b.2.2 = s
      · have ha : ¬ a.2.2 = s := by
          intro ha
          exact hab (by unfold rankLE; rw [hb, ha])
        simp only [hb, decide_True, if_true, filter_orderedInsert s a l, ha, decide_False,
          Bool.false_eq_true, if_false]
      · simp only [hb, decide_False, Bool.false_eq_true, if_false, filter_orderedInsert s a l]

theorem filter_insertionSort (s : ℝ) :
    ∀ l : List (Nat × String × ℝ),
      (List.insertionSort rankLE l).filter (fun r => decide (r.2.2 = s)) =
        l.filter (fun r => decide (r.2.2 = s))
  | [] => rfl
  | b :: l => by
    simp only [List.insertionSort]
    rw [filter_orderedInsert, List.filter_cons]
    by_cases hb : b.2.2 = s
    · simp only [hb, decide_True, if_true, filter_insertionSort s l]
    · simp only [hb, decide_False, Bool.false_eq_true, if_false, filter_insertionSort s l]

theorem filter_take_prefix (p : α → Bool) (k : Nat) (l : List α) :
    (l.take k).filter p <+: l.filter p := by
  obtain ⟨t, ht⟩ := List.take_prefix k l
  refine ⟨t.filter p, ?_⟩
  rw [← List.filter_append, ht]

/-! ### Zero-norm vectors score zero -/

theorem zipWith_mul_self : ∀ a : List ℝ,
    List.zipWith (fun x y => x * y) a a = a.map (fun x => x * x)
  | [] => rfl
  | x :: a => by simp [zipWith_mul_self a]

theorem normSq_eq_zero_iff (a : List ℝ) : normSq a = 0 ↔ ∀ x ∈ a, x = 0 := by
  unfold normSq dotList
  rw [zipWith_mul_self]
  induction a with
  | nil => simp
  | cons x a ih =>
    simp only [List.map_cons, List.sum_cons, List.mem_cons]
    constructor
    · intro h
      have hx : 0 ≤ x * x := mul_self_nonneg x
      have hs : 0 ≤ (a.map (fun x => x * x)).sum :=
        List.sum_nonneg (fun y hy => by
          obtain ⟨u, hu, rfl⟩ := List.mem_map.mp hy
          exact mul_self_nonneg u)
      have hx0 : x = 0 := mul_self_eq_zero.mp (by linarith)
      refine fun y hy => hy.elim (fun h' => h' ▸ hx0) (fun h' => ih.mp (by linarith) y h')
    · intro h
      rw [h x (Or.inl rfl), mul_zero, zero_add]
      exact ih.mpr (fun y hy => h y (Or.inr hy))

theorem dotList_eq_zero_left : ∀ (a : List ℝ), (∀ x ∈ a, x = 0) → ∀ b, dotList a b = 0
  | [], _, b => by simp [dotList]
  | x :: a, h, [] => by simp [dotList]
  | x :: a, h, y :: b => by
    unfold dotList
    simp only [List.zipWith_cons_cons, List.sum_cons]
    rw [h x (by simp), zero_mul, zero_add]
    exact dotList_eq_zero_left a (fun x hx => h x (by simp [hx])) b

theorem dotList_eq_zero_right : ∀ (a b : List ℝ), (∀ x ∈ b, x = 0) → dotList a b = 0
  | [], b, _ => by simp [dotList]
  | x :: a, [], _ => by simp [dotList]
  | x :: a, y :: b, h => by
    unfold dotList
    simp only [List.zipWith_cons_cons, List.sum_cons]
    rw [h y (by simp), mul_zero, zero_add]
    exact dotList_eq_zero_right a b (fun x hx => h x (by simp [hx]))

theorem cosine_similarity_eq_zero (q v : List ℝ) (h : normSq q = 0 ∨ normSq v = 0) :
    cosine_similarity q v = 0 := by
  unfold cosine_similarity
  rcases h with h | h
  · rw [dotList_eq_zero_left q ((normSq_eq_zero_iff q).mp h) v, zero_div]
  · rw [dotList_eq_zero_right q v ((normSq_eq_zero_iff v).mp h), zero_div]

/-! ### Shared helpers for the retriever and the ingestion records -/

theorem find_best_match_pairwise (q : List ℝ) (coll : List (Nat × String × List ℝ)) (k : Nat) :
    List.Pairwise (fun a b => b.2.2 ≤ a.2.2) (find_best_match q coll k) := by
  unfold find_best_match
  have hp : List.Pairwise rankLE
      (List.insertionSort rankLE (coll.map (fun r => (r.1, r.2.1, cosine_similarity q r.2.2)))) :=
    List.sorted_insertionSort rankLE _
  exact List.Pairwise.imp (fun hab => hab) (List.Pairwise.sublist (List.take_sublist k _) hp)

theorem find_best_match_stable_filter (q : List ℝ) (coll : List (Nat × String × List ℝ))
    (k : Nat) (s : ℝ) :
    (find_best_match q coll k).filter (fun r => decide (r.2.2 = s)) <+:
      (coll.map (fun r => (r.1, r.2.1, cosine_similarity q r.2.2))).filter
        (fun r => decide (r.2.2 = s)) := by
  unfold find_best_match
  have h := filter_take_prefix (fun r => decide (r.2.2 = s)) k
    (List.insertionSort rankLE (coll.map (fun r => (r.1, r.2.1, cosine_similarity q r.2.2))))
  rwa [filter_insertionSort] at h

theorem flatten_map_filter {p : α → Bool} (f : α → List β) :
    ∀ l : List α, (∀ x ∈ l, p x = false → f x = []) →
      ((l.filter p).map f).flatten = (l.map f).flatten
  | [], _ => rfl
  | x :: l, h => by
    rw [List.filter_cons]
    have ih := flatten_map_filter f l (fun y hy hpy => h y (by simp [hy]) hpy)
    cases hx : p x with
    | true => simp only [if_true, List.map_cons, List.flatten_cons, ih]
    | false =>
      have hfx : f x = [] := h x (by simp) hx
      simp only [Bool.false_eq_true, if_false, List.map_cons, List.flatten_cons, hfx,
        List.nil_append, ih]

theorem clean_text_words_ne_nil (t : String) (h : 1 ≤ (clean_text t).length) :
    splitWS (clean_text t).data ≠ [] := by
  have hdata : (clean_text t).data ≠ [] := by
    intro hnil
    have : (clean_text t).length = (clean_text t).data.length := rfl
    rw [this, hnil] at h
    simp at h
  obtain ⟨c, l', hcl⟩ := List.exists_cons_of_ne_nil hdata
  have hc : ¬ c.isWhitespace := by
    apply pyStrip_head (subWSAux false t.data) c
    have hdd : (clean_text t).data = pyStrip (subWSAux false t.data) := rfl
    rw [← hdd, hcl]
    rfl
  rw [hcl]
  exact splitWS_cons_not_ws_ne_nil l' hc

theorem chunk_text_clean_ne_nil (t : String) (h : 1 ≤ (clean_text t).length) :
    ∀ cs, chunk_text (clean_text t) 1000 200 = some cs → cs ≠ [] := by
  intro cs hcs
  rw [chunk_text_some _ 1000 200 (by omega)] at hcs
  injection hcs with hcs
  subst hcs
  obtain ⟨a, l', hl⟩ := List.exists_cons_of_ne_nil (clean_text_words_ne_nil t h)
  rw [hl, chunkWords_cons]
  simp

theorem discourseRecords_short (p : Post) (h : (clean_text p.content).length < 30) :
    discourseRecords [p] = [] := by
  simp [discourseRecords, h]

theorem markdownRecords_short (f : String × String) (h : (clean_text f.2).length < 30) :
    markdownRecords [f] = [] := by
  simp [markdownRecords, h]

theorem discourseRecords_long (p : Post) (h : 30 ≤ (clean_text p.content).length) :
    discourseRecords [p] ≠ [] := by
  simp only [discourseRecords, List.map_cons, List.map_nil, List.flatten_cons, List.flatten_nil,
    List.append_nil]
  rw [if_neg (by omega)]
  cases hcs : chunk_text (clean_text p.content) 1000 200 with
  | none =>
    rw [chunk_text_some _ 1000 200 (by omega)] at hcs
    cases hcs
  | some cs =>
    have hne := chunk_text_clean_ne_nil p.content (by omega) cs hcs
    rw [Option.getD_some]
    simpa using hne

theorem markdownRecords_long (f : String × String) (h : 30 ≤ (clean_text f.2).length) :
    markdownRecords [f] ≠ [] := by
  simp only [markdownRecords, List.map_cons, List.map_nil, List.flatten_cons, List.flatten_nil,
    List.append_nil]
  rw [if_neg (by omega)]
  cases hcs : chunk_text (clean_text f.2) 1000 200 with
  | none =>
    rw [chunk_text_some _ 1000 200 (by omega)] at hcs
    cases hcs
  | some cs =>
    have hne := chunk_text_clean_ne_nil f.2 (by omega) cs hcs
    rw [Option.getD_some]
    obtain ⟨c, cs', rfl⟩ := List.exists_cons_of_ne_nil hne
    simp [List.enum_cons]

/-! ## The claims -/

/-- C1: for every query embedding, collection and `k`, the sequence returned by
`find_best_match` (the spec's `top_k`) is sorted by non-increasing
cosine-similarity score; moreover, for every fixed score `s`, the returned
results carrying score `s` form, in order, a prefix of the scored scan of the
collection restricted to score `s` — so any two results with equal scores
appear in their original insertion (scan) order: the sort is stable. -/
theorem find_best_match_sorted_stable (q : List ℝ) (coll : List (Nat × String × List ℝ))
    (k : Nat) :
    List.Pairwise (fun a b => b.2.2 ≤ a.2.2) (find_best_match q coll k) ∧
    ∀ s : ℝ, (find_best_match q coll k).filter (fun r => decide (r.2.2 = s)) <+:
      (coll.map (fun r => (r.1, r.2.1, cosine_similarity q r.2.2))).filter
        (fun r => decide (r.2.2 = s)) :=
  ⟨find_best_match_pairwise q coll k, fun s => find_best_match_stable_filter q coll k s⟩

/-- C2 counterexample: the claim "every non-empty text with fewer than
`window_size` tokens yields exactly one chunk equal to the text" fails on the
code: the non-empty all-whitespace text `" "` yields no chunk at all; the
text `"a  b"` (two tokens, double space) yields one chunk `"a b"` that differs
from the input; and `"a b"` (2 < 3 tokens) with `window_size = 3`,
`overlap = 2` yields two chunks because the stride is `window_size - overlap`. -/
theorem chunk_text_short_text_cex :
    chunk_text " " 1000 200 = some [] ∧
    (chunk_text "a  b" 1000 200 = some ["a b"] ∧ "a b" ≠ "a  b") ∧
    chunk_text "a b" 3 2 = some ["a b", "b"] := by
  decide

/-- C2 (amended): for every text `t` with at least one token and at most
`window_size - overlap` tokens, and `overlap < window_size`,
`chunk_text t window_size overlap` yields exactly one chunk, equal to the
whitespace-delimited tokens of `t` joined by single spaces (hence equal to
`t` itself whenever `t` is already normalized). -/
theorem chunk_text_single_chunk (t : String) (w o : Nat) (h₁ : o < w)
    (h₂ : 0 < (pySplit t).length) (h₃ : (pySplit t).length ≤ w - o) :
    chunk_text t w o = some [String.mk (joinChars (splitWS t.data))] := by
  rw [chunk_text_some t w o h₁]
  have hlen : (splitWS t.data).length ≤ w - o := by
    have hpl : (pySplit t).length = (splitWS t.data).length := by simp [pySplit]
    omega
  obtain ⟨a, l', hl⟩ : ∃ a l', splitWS t.data = a :: l' := by
    cases he : splitWS t.data with
    | nil =>
      unfold pySplit at h₂
      rw [he] at h₂
      simp at h₂
    | cons a l' => exact ⟨a, l', rfl⟩
  rw [chunkWords_of_short w (w - o) (splitWS t.data) hlen a l' hl,
    List.take_of_length_le (by omega), List.map_cons, List.map_nil]

/-- C2 witness: `"a b"` has two tokens, `window_size = 3`, `overlap = 1`,
stride `2`; the amended theorem applies and gives the single chunk `"a b"`. -/
theorem chunk_text_single_chunk_witness :
    chunk_text "a b" 3 1 = some [String.mk (joinChars (splitWS "a b".data))] :=
  chunk_text_single_chunk "a b" 3 1 (by decide) (by decide) (by decide)

/-- C3: the code performs no `overlap >= window_size` validation at all.
With `overlap > window_size` (negative Python `range` step) `chunk_text`
silently returns no chunks, and with `overlap = window_size` (zero step)
Python's `range` raises `ValueError` only when chunking is attempted — there
is no explicit configuration-time check, contradicting the spec's
must-validate precondition (which the spec itself flags as a latent bug of
the source). -/
theorem chunk_text_no_validation :
    chunk_text "a b c" 2 3 = some [] ∧ chunk_text "a b c" 2 2 = none := by
  decide

/-- C4: for every text and all `overlap < window_size`, concatenating the
chunks produced by `chunk_text` after dropping each later chunk's `overlap`
leading tokens (de-duplicating the overlap against the previous chunk)
reconstructs exactly the whitespace-delimited token sequence of the text. -/
theorem chunk_text_reconstructs (t : String) (w o : Nat) (h : o < w) :
    (chunk_text t w o).map (fun cs => dedupChunks o (cs.map pySplit)) = some (pySplit t) := by
  rw [chunk_text_some t w o h, Option.map_some']
  congr 1
  rw [List.map_map]
  have hmaps : (chunkWords w (w - o) (splitWS t.data)).map
        (pySplit ∘ fun win => String.mk (joinChars win))
      = (chunkWords w (w - o) (splitWS t.data)).map (List.map String.mk) := by
    apply List.map_congr_left
    intro win hwin
    obtain ⟨hne, hmem⟩ := chunkWords_mem w (w - o) (by omega) _ win hwin
    show pySplit (String.mk (joinChars win)) = win.map String.mk
    unfold pySplit
    have hdd : (String.mk (joinChars win)).data = joinChars win := rfl
    rw [hdd, splitWS_joinChars win (fun u hu => splitWS_tokens t.data u (hmem u hu))]
  rw [hmaps, dedupChunks_map, chunkWords_reconstruct w o h]
  rfl

/-- C4 witness: `"a b c"` with `window_size = 2`, `overlap = 1`. -/
theorem chunk_text_reconstructs_witness :
    (chunk_text "a b c" 2 1).map (fun cs => dedupChunks 1 (cs.map pySplit)) =
      some (pySplit "a b c") :=
  chunk_text_reconstructs "a b c" 2 1 (by decide)

/-- C5: whenever the query vector or a stored vector has zero norm, that
pair's cosine similarity is `0` (sklearn's zero-norm guard, total — no NaN in
the real-valued model), and in the ranking returned by `find_best_match` no
entry that precedes a positively-scored entry can itself be non-positive — so
zero-norm pairs never outrank a pair with positive similarity. -/
theorem zero_norm_scores_zero (q v : List ℝ) (h : normSq q = 0 ∨ normSq v = 0) :
    cosine_similarity q v = 0 ∧
    ∀ (coll : List (Nat × String × List ℝ)) (k i j : Nat)
      (hi : i < (find_best_match q coll k).length)
      (hj : j < (find_best_match q coll k).length),
      i ≤ j → 0 < ((find_best_match q coll k).get ⟨j, hj⟩).2.2 →
      0 < ((find_best_match q coll k).get ⟨i, hi⟩).2.2 := by
  refine ⟨cosine_similarity_eq_zero q v h, ?_⟩
  intro coll k i j hi hj hij hpos
  rcases Nat.lt_or_ge i j with hlt | hge
  · have hp := find_best_match_pairwise q coll k
    have hle := List.pairwise_iff_get.mp hp ⟨i, hi⟩ ⟨j, hj⟩ (Fin.mk_lt_mk.mpr hlt)
    exact lt_of_lt_of_le hpos hle
  · have hij' : i = j := le_antisymm hij hge
    subst hij'
    exact hpos

/-- C5 witness: the zero vector against `[1, 2]` scores `0`. -/
theorem zero_norm_scores_zero_witness : cosine_similarity [(0 : ℝ), 0] [1, 2] = 0 :=
  (zero_norm_scores_zero [0, 0] [1, 2] (Or.inl (by norm_num [normSq, dotList]))).1

/-- C6: `find_best_match` returns at most `top_k` results and at most as many
results as there are records in the collection; on an empty collection it
returns the empty sequence (not an error). -/
theorem find_best_match_count (q : List ℝ) (coll : List (Nat × String × List ℝ)) (k : Nat) :
    (find_best_match q coll k).length ≤ k ∧
    (find_best_match q coll k).length ≤ coll.length ∧
    find_best_match q [] k = [] := by
  refine ⟨?_, ?_, ?_⟩
  · unfold find_best_match
    exact List.length_take_le k _
  · unfold find_best_match
    show (List.take k (List.insertionSort rankLE
      (coll.map (fun r => (r.1, r.2.1, cosine_similarity q r.2.2))))).length ≤ coll.length
    have h1 : (List.insertionSort rankLE
        (coll.map (fun r => (r.1, r.2.1, cosine_similarity q r.2.2)))).length
        = coll.length := by
      rw [(List.perm_insertionSort rankLE _).length_eq, List.length_map]
    have h2 := (List.take_sublist k (List.insertionSort rankLE
      (coll.map (fun r => (r.1, r.2.1, cosine_similarity q r.2.2))))).length_le
    omega
  · unfold find_best_match
    simp

/-- C7: for every input string, `clean_text` (the spec's `normalize`) yields a
string with no two consecutive whitespace characters, no leading and no
trailing whitespace, and whose only whitespace character is the single space
each internal run was collapsed to; being a Lean function it is total. -/
theorem clean_text_normalized (t : String) :
    List.Chain' (fun a b => ¬(a.isWhitespace ∧ b.isWhitespace)) (clean_text t).data ∧
    (clean_text t).data.head?.all (fun c => !c.isWhitespace) = true ∧
    (clean_text t).data.getLast?.all (fun c => !c.isWhitespace) = true ∧
    ∀ c ∈ (clean_text t).data, c.isWhitespace → c = ' ' := by
  have hdd : (clean_text t).data = pyStrip (subWSAux false t.data) := rfl
  refine ⟨?_, ?_, ?_, ?_⟩
  · rw [hdd]
    exact List.Chain'.infix (subWSAux_chain t.data false) (pyStrip_isInfix _)
  · rw [hdd]
    cases hh : (pyStrip (subWSAux false t.data)).head? with
    | none => rfl
    | some c => simpa using pyStrip_head _ c hh
  · rw [hdd]
    cases hh : (pyStrip (subWSAux false t.data)).getLast? with
    | none => rfl
    | some c => simpa using pyStrip_getLast _ c hh
  · rw [hdd]
    intro c hc hws
    exact subWSAux_ws_space t.data false c ((pyStrip_isInfix _).sublist.subset hc) hws

/-- C8: in both ingestion loops, a document whose normalized content is
shorter than 30 characters contributes no chunk record at all (dropping all
short documents leaves the stored records unchanged, and a short document
alone stores nothing), while a document at or above 30 characters always
proceeds to chunking and stores at least one record. -/
theorem short_documents_dropped (posts : List Post) (files : List (String × String)) :
    discourseRecords posts =
      discourseRecords (posts.filter (fun p => decide (30 ≤ (clean_text p.content).length))) ∧
    markdownRecords files =
      markdownRecords (files.filter (fun f => decide (30 ≤ (clean_text f.2).length))) ∧
    (∀ p : Post, (clean_text p.content).length < 30 → discourseRecords [p] = []) ∧
    (∀ f : String × String, (clean_text f.2).length < 30 → markdownRecords [f] = []) ∧
    (∀ p : Post, 30 ≤ (clean_text p.content).length → discourseRecords [p] ≠ []) ∧
    (∀ f : String × String, 30 ≤ (clean_text f.2).length → markdownRecords [f] ≠ []) := by
  refine ⟨?_, ?_, fun p h => discourseRecords_short p h, fun f h => markdownRecords_short f h,
    fun p h => discourseRecords_long p h, fun f h => markdownRecords_long f h⟩
  · exact (flatten_map_filter
      (p := fun p : Post => decide (30 ≤ (clean_text p.content).length))
      (fun p : Post =>
      if (clean_text p.content).length < 30 then []
      else ((chunk_text (clean_text p.content) 1000 200).getD []).map
        (fun c => (p.post_id, p.url, c))) posts (fun x _ hfalse => by
          have hlt : (clean_text x.content).length < 30 := by
            have := of_decide_eq_false hfalse
            omega
          simp [hlt])).symm
  · exact (flatten_map_filter
      (p := fun f : String × String => decide (30 ≤ (clean_text f.2).length))
      (fun f : String × String =>
      if (clean_text f.2).length < 30 then []
      else (((chunk_text (clean_text f.2) 1000 200).getD []).enum).map
        (fun ic => (f.1, ic.1, ic.2))) files (fun x _ hfalse => by
          have hlt : (clean_text x.2).length < 30 := by
            have := of_decide_eq_false hfalse
            omega
          simp [hlt])).symm

/-- C8 witness: a 2-character post stores no record. -/
theorem short_documents_dropped_witness :
    discourseRecords [Post.mk "1" "u" "hi"] = [] :=
  (short_documents_dropped [] []).2.2.1 (Post.mk "1" "u" "hi") (by decide)

/-- C10: for every input string (normalized beforehand or not) and every
`overlap < window_size`, every chunk produced by `chunk_text` is a fixed
point of `clean_text`: tokens are re-joined with single spaces, so the chunk
has no consecutive, leading or trailing whitespace. -/
theorem chunk_text_chunks_normalized (t : String) (w o : Nat) (h : o < w) (cs : List String)
    (hcs : chunk_text t w o = some cs) : ∀ c ∈ cs, clean_text c = c := by
  intro c hc
  rw [chunk_text_some t w o h] at hcs
  injection hcs with hcs
  subst hcs
  obtain ⟨win, hwin, rfl⟩ := List.mem_map.mp hc
  obtain ⟨hne, hmem⟩ := chunkWords_mem w (w - o) (by omega) _ win hwin
  exact clean_text_joinChars win hne (fun u hu => splitWS_tokens t.data u (hmem u hu))

/-- C10 witness: the first chunk of `"a b c"` with window `2`, overlap `1` is
`"a b"`, a fixed point of `clean_text`. -/
theorem chunk_text_chunks_normalized_witness : clean_text "a b" = "a b" :=
  chunk_text_chunks_normalized "a b c" 2 1 (by decide) ["a b", "b c", "c"] (by decide)
    "a b" (by decide)
